import Mathlib

/-!
# Verification of `julia.py`, an escape-time Julia set renderer

The Python source is shallowly embedded below.  Real (`float`) arithmetic is
modelled by `ℝ`, Python `complex` by `ℂ`, and the numpy output array by a
function `ℕ × ℕ → ℕ` built from the ordered list of array assignments the
two nested loops of `main` perform.
-/

set_option maxHeartbeats 1000000

/-- The iterated function, from `julia.py`: `def f(z, c): return z*z + c`. -/
def f (z c : ℂ) : ℂ := z * z + c

/-- The trajectory of the iteration: `orbit z c n` is the n-th iterate of `f · c`
starting from `z` (so `orbit z c 0 = z`). -/
def orbit (z c : ℂ) : ℕ → ℂ
  | 0 => z
  | n + 1 => f (orbit z c n) c

/-- The loop of `checkz`, from `julia.py`:
`while n <= max_iter: z = f(z, c); if abs(z) > r: return n; n += 1` and
`return 0` on normal exit.  The loop counter `n` starts at the given value and
the remaining number of loop entries (`max_iter - n + 1`) is the structural
fuel. -/
noncomputable def checkzGo (c : ℂ) (r : ℝ) : ℂ → ℕ → ℕ → ℕ
  | _, _, 0 => 0
  | z, n, fuel + 1 =>
    let z1 := f z c
    if r < Complex.abs z1 then n else checkzGo c r z1 (n + 1) fuel

/-- `checkz(z, c, r, max_iter)` from `julia.py`: the 1-based iteration index at
which `|f^n(z)|` first exceeds `r`, or `0` if that does not happen within
`max_iter` iterations. -/
noncomputable def checkz (z c : ℂ) (r : ℝ) (max_iter : ℕ) : ℕ :=
  checkzGo c r z 1 max_iter

/-- Plot boundary `x0` from `main`: `(x0, x1, y0, y1) = (-2, 2, -2, 2)`. -/
def x0 : ℝ := -2

/-- Plot boundary `x1`. -/
def x1 : ℝ := 2

/-- Plot boundary `y0`. -/
def y0 : ℝ := -2

/-- Plot boundary `y1`. -/
def y1 : ℝ := 2

/-- Pixel-to-plane map from `main`: `x = x0 + (x1 - x0) * xpixel / x_res`. -/
noncomputable def xcoord (R xp : ℕ) : ℝ := x0 + (x1 - x0) * xp / R

/-- Pixel-to-plane map from `main`: `y = y0 + (y1 - y0) * ypixel / y_res`. -/
noncomputable def ycoord (R yp : ℕ) : ℝ := y0 + (y1 - y0) * yp / R

/-- Escape radius from `main`: `r = (1 + math.sqrt(1 + 4 * abs(c))) / 2`. -/
noncomputable def escapeRadius (c : ℂ) : ℝ :=
  (1 + Real.sqrt (1 + 4 * Complex.abs c)) / 2

/-- Python negative-index wraparound on an axis of length `R`: the assignment
`pixels[-k]` with `0 ≤ k < R` addresses element `(R - k) % R` (that is `R - k`
for `k ≠ 0`, and `0` for `k = 0`). -/
def negIdx (R k : ℕ) : ℕ := (R - k) % R

/-- One escape evaluation of `main`'s inner loop body:
`z = x + 1j * y; pix = checkz(z, c, r, max_iter)`. -/
noncomputable def pixelValue (R : ℕ) (c : ℂ) (r : ℝ) (m : ℕ) (xp yp : ℕ) : ℕ :=
  let z : ℂ := (xcoord R xp : ℝ) + Complex.I * (ycoord R yp : ℝ)
  checkz z c r m

/-- The ordered list of array assignments performed by the double loop of
`main` (outer loop `xpixel`, inner loop `ypixel`): rows with `y < 0` are
skipped (`continue`), otherwise the computed value is written to
`pixels[ypixel, xpixel]` and then to `pixels[-ypixel, -xpixel]`.  Each entry
is `(cell, value)` where `cell = (row, column)`. -/
noncomputable def writeEvents (R : ℕ) (c : ℂ) (r : ℝ) (m : ℕ) :
    List ((ℕ × ℕ) × ℕ) :=
  (List.range R).flatMap fun xpixel =>
    (List.range R).flatMap fun ypixel =>
      if ycoord R ypixel < 0 then []
      else
        let pix := pixelValue R c r m xpixel ypixel
        [((ypixel, xpixel), pix), ((negIdx R ypixel, negIdx R xpixel), pix)]

/-- Imperative array-assignment semantics: one write. -/
def applyWrite (g : ℕ × ℕ → ℕ) (e : (ℕ × ℕ) × ℕ) : ℕ × ℕ → ℕ :=
  Function.update g e.1 e.2

/-- Imperative array-assignment semantics: execute a list of writes in order. -/
def runWrites (l : List ((ℕ × ℕ) × ℕ)) (g : ℕ × ℕ → ℕ) : ℕ × ℕ → ℕ :=
  l.foldl applyWrite g

/-- The escape grid computed by `main`: start from `numpy.zeros((y_res, x_res))`
and perform all assignments of the double loop in order. -/
noncomputable def grid (R : ℕ) (c : ℂ) (r : ℝ) (m : ℕ) : ℕ × ℕ → ℕ :=
  runWrites (writeEvents R c r m) (fun _ => 0)

/-- `numpy.amax` over the `R × R` grid: the maximum entry (`0` for an empty
range). -/
def gridAmax (R : ℕ) (g : ℕ × ℕ → ℕ) : ℕ :=
  ((List.range R).flatMap fun py => (List.range R).map fun px => g (py, px)).foldl
    max 0

/-- The hand-derived expected escape grid for `c = 0`, `R = 4`, `max_iter = 10`
(row-major, row index first). -/
def expectedGrid4 : ℕ × ℕ → ℕ := fun p =>
  (([[0, 0, 0, 0], [1, 1, 0, 1], [1, 0, 0, 0], [1, 1, 0, 1]] :
      List (List ℕ)).getD p.1 []).getD p.2 0

/-- Python `int()` applied to a float: truncation toward zero. -/
noncomputable def pyInt (x : ℝ) : ℤ := if 0 ≤ x then ⌊x⌋ else -⌊-x⌋

/-- The Python standard library function `colorsys.hsv_to_rgb`, embedded
statement by statement (the library's local `f` is called `fr` here to avoid
clashing with the iterated map; the unreachable fall-through after its
`i == 5` case is folded into the final `else`; Python `%` agrees with
`Int.emod` for the positive modulus 6). -/
noncomputable def hsv_to_rgb (h s v : ℝ) : ℝ × ℝ × ℝ :=
  if s = 0 then (v, v, v)
  else
    let i0 : ℤ := pyInt (h * 6)
    let fr : ℝ := h * 6 - i0
    let p : ℝ := v * (1 - s)
    let q : ℝ := v * (1 - s * fr)
    let t : ℝ := v * (1 - s * (1 - fr))
    let i : ℤ := i0 % 6
    if i = 0 then (v, t, p)
    else if i = 1 then (q, v, p)
    else if i = 2 then (p, v, t)
    else if i = 3 then (p, q, v)
    else if i = 4 then (t, p, v)
    else (v, p, q)

/-- The per-pixel body of the colour branch of `main` (lines 139–146), acting
on a normalized pixel value `v` and the hue offset:
`if v == 0: (0,0,0) else: hue = v + offset; if hue > 1: hue -= 1;
colorsys.hsv_to_rgb(hue, 1, 0.5)`. -/
noncomputable def colourPixel (v offset : ℝ) : ℝ × ℝ × ℝ :=
  if v = 0 then (0, 0, 0)
  else
    let hue : ℝ := v + offset
    let hue2 : ℝ := if 1 < hue then hue - 1 else hue
    hsv_to_rgb hue2 1 0.5

/-- Modelled from the spec: the Colour Mapper as §4.2 words it — value 0 maps
to black, value `v > 0` maps to RGB from HSV with hue `(v + offset) mod 1`
(real mod 1, i.e. the fractional part), saturation 1 and value 0.5.  Used to
compare the source's conditional subtraction against the spec's `mod 1`. -/
noncomputable def specColourPixel (v offset : ℝ) : ℝ × ℝ × ℝ :=
  if v = 0 then (0, 0, 0)
  else hsv_to_rgb (Int.fract (v + offset)) 1 0.5

/-- A Python value the `--colour` argument can hold: the string default
`'false'` from `add_argument('--colour', action='store_true', default='false')`
or a genuine boolean stored by `store_true`. -/
inductive ColourArg where
  | bool (b : Bool)
  | str (s : String)

/-- The value `argparse` leaves in `args.colour`: the boolean `True` when the
flag is passed on the command line (`action='store_true'`), the string
default `'false'` otherwise. -/
def colourParsed (passed : Bool) : ColourArg :=
  if passed then ColourArg.bool true else ColourArg.str "false"

/-- The guard of the colour branch of `main`: `args.colour is True`.  Python's
`is True` holds exactly for the boolean object `True`, never for a string. -/
def colourIsTrue : ColourArg → Bool
  | ColourArg.bool true => true
  | _ => false

section CheckzLemmas

/-- `f` is even in `z`: the first step from `-z` equals the first step from `z`. -/
theorem f_neg (z c : ℂ) : f (-z) c = f z c := by
  unfold f; ring

/-- Shifting the start of the trajectory by one application of `f`. -/
theorem orbit_shift (z c : ℂ) : ∀ k, orbit z c (k + 1) = orbit (f z c) c k := by
  intro k
  induction k with
  | zero => rfl
  | succ k ih => simp only [orbit] at ih ⊢; rw [ih]

/-- A fixed point of `f · c` has a constant trajectory. -/
theorem orbit_fix {w c : ℂ} (h : f w c = w) : ∀ k, orbit w c k = w := by
  intro k
  induction k with
  | zero => rfl
  | succ k ih => simp only [orbit, ih, h]

/-- The loop counter can only grow to `n + fuel - 1` before fuel runs out. -/
theorem checkzGo_le (c : ℂ) (r : ℝ) :
    ∀ fuel z n, checkzGo c r z n fuel ≤ n + fuel - 1 := by
  intro fuel
  induction fuel with
  | zero => intro z n; simp [checkzGo]
  | succ k ih =>
    intro z n
    simp only [checkzGo]
    split
    · omega
    · have := ih (f z c) (n + 1); omega

/-- If the whole (checked part of the) trajectory stays within radius `r`,
the loop runs out of fuel and returns `0`. -/
theorem checkzGo_eq_zero (c : ℂ) (r : ℝ) :
    ∀ fuel z n,
      (∀ i, 1 ≤ i → i ≤ fuel → Complex.abs (orbit z c i) ≤ r) →
      checkzGo c r z n fuel = 0 := by
  intro fuel
  induction fuel with
  | zero => intro z n _; rfl
  | succ k ih =>
    intro z n h
    have h1 : Complex.abs (f z c) ≤ r := by
      have := h 1 le_rfl (by omega)
      have ho : orbit z c 1 = f z c := rfl
      rwa [ho] at this
    simp only [checkzGo]
    rw [if_neg (not_lt.mpr h1)]
    refine ih (f z c) (n + 1) ?_
    intro i hi1 hik
    have := h (i + 1) (by omega) (by omega)
    rwa [orbit_shift] at this

/-- Full characterisation of the loop: a zero result means the whole checked
trajectory stayed within `r`; a positive result is the counter value at the
first checked iterate whose absolute value exceeds `r`. -/
theorem checkzGo_spec (c : ℂ) (r : ℝ) :
    ∀ fuel z n, 1 ≤ n →
      (checkzGo c r z n fuel = 0 →
        ∀ i, 1 ≤ i → i ≤ fuel → Complex.abs (orbit z c i) ≤ r) ∧
      (0 < checkzGo c r z n fuel →
        ∃ i, 1 ≤ i ∧ i ≤ fuel ∧ checkzGo c r z n fuel = n + i - 1 ∧
          r < Complex.abs (orbit z c i) ∧
          ∀ k, 1 ≤ k → k < i → Complex.abs (orbit z c k) ≤ r) := by
  intro fuel
  induction fuel with
  | zero =>
    intro z n _
    constructor
    · intro _ i h1 h2; omega
    · intro h; simp [checkzGo] at h
  | succ fl ih =>
    intro z n hn
    have ho1 : orbit z c 1 = f z c := rfl
    by_cases hesc : r < Complex.abs (f z c)
    · have hval : checkzGo c r z n (fl + 1) = n := by
        simp only [checkzGo]; rw [if_pos hesc]
      constructor
      · intro h0; rw [hval] at h0; omega
      · intro _
        refine ⟨1, le_rfl, by omega, by omega, ?_, ?_⟩
        · rwa [ho1]
        · intro k hk1 hk2; omega
    · have hval : checkzGo c r z n (fl + 1) = checkzGo c r (f z c) (n + 1) fl := by
        simp only [checkzGo]; rw [if_neg hesc]
      have hfz := ih (f z c) (n + 1) (by omega)
      constructor
      · intro h0 i hi1 hi2
        rw [hval] at h0
        rcases Nat.lt_or_ge i 2 with hi | hi
        · have : i = 1 := by omega
          subst this
          rw [ho1]; exact not_lt.mp hesc
        · obtain ⟨j, rfl⟩ : ∃ j, i = j + 1 := ⟨i - 1, by omega⟩
          rw [orbit_shift]
          exact hfz.1 h0 j (by omega) (by omega)
      · intro hpos
        rw [hval] at hpos
        obtain ⟨i, hi1, hifl, heq, hgt, hbelow⟩ := hfz.2 hpos
        refine ⟨i + 1, by omega, by omega, by rw [hval]; omega, ?_, ?_⟩
        · rwa [orbit_shift]
        · intro k hk1 hki
          rcases Nat.lt_or_ge k 2 with hk | hk
          · have : k = 1 := by omega
            subst this
            rw [ho1]; exact not_lt.mp hesc
          · obtain ⟨j, rfl⟩ : ∃ j, k = j + 1 := ⟨k - 1, by omega⟩
            rw [orbit_shift]
            exact hbelow j (by omega) (by omega)

/-- `checkz` never exceeds the iteration cap. -/
theorem checkz_le (z c : ℂ) (r : ℝ) (m : ℕ) : checkz z c r m ≤ m := by
  have := checkzGo_le c r m z 1
  unfold checkz
  omega

/-- `checkz` returns `0` when the checked trajectory stays within `r`. -/
theorem checkz_eq_zero_of (z c : ℂ) (r : ℝ) (m : ℕ)
    (h : ∀ i, 1 ≤ i → i ≤ m → Complex.abs (orbit z c i) ≤ r) :
    checkz z c r m = 0 :=
  checkzGo_eq_zero c r m z 1 h

/-- `checkz` returns `1` as soon as the very first iterate escapes. -/
theorem checkz_eq_one (z c : ℂ) (r : ℝ) {m : ℕ} (hm : 1 ≤ m)
    (h : r < Complex.abs (f z c)) : checkz z c r m = 1 := by
  obtain ⟨k, rfl⟩ : ∃ k, m = k + 1 := ⟨m - 1, by omega⟩
  unfold checkz
  simp only [checkzGo]
  rw [if_pos h]

/-- `checkz` is even in its starting value. -/
theorem checkz_neg (z c : ℂ) (r : ℝ) (m : ℕ) :
    checkz (-z) c r m = checkz z c r m := by
  unfold checkz
  cases m with
  | zero => rfl
  | succ k => simp only [checkzGo, f_neg]

end CheckzLemmas

section CoordLemmas

/-- The row-skip test of the double loop in integer form: the mapped
coordinate `y` is negative exactly when `2 * ypixel < R`. -/
theorem ycoord_neg_iff {R : ℕ} (hR : 1 ≤ R) (yp : ℕ) :
    ycoord R yp < 0 ↔ 2 * yp < R := by
  have hR0 : (0 : ℝ) < R := by exact_mod_cast hR
  unfold ycoord y0 y1
  constructor
  · intro h
    have hmul : (2 - (-2)) * (yp : ℝ) < 2 * R := by
      have := (div_lt_iff₀ hR0).mp (show (2 - (-2)) * (yp : ℝ) / R < 2 by linarith)
      linarith
    have h2 : ((2 * yp : ℕ) : ℝ) < ((R : ℕ) : ℝ) := by push_cast; linarith
    exact_mod_cast h2
  · intro h
    have h2 : ((2 * yp : ℕ) : ℝ) < ((R : ℕ) : ℝ) := by exact_mod_cast h
    have hdiv : (2 - (-2)) * (yp : ℝ) / R < 2 := by
      rw [div_lt_iff₀ hR0]
      push_cast at h2
      linarith
    linarith

/-- Rows with `2 * ypixel = R` are mapped to the axis `y = 0`. -/
theorem ycoord_eq_zero {R yp : ℕ} (hR : 1 ≤ R) (h : 2 * yp = R) :
    ycoord R yp = 0 := by
  have hR0 : (0 : ℝ) < R := by exact_mod_cast hR
  have h2 : ((2 * yp : ℕ) : ℝ) = ((R : ℕ) : ℝ) := by exact_mod_cast congrArg (fun t : ℕ => (t : ℝ)) h
  unfold ycoord y0 y1
  push_cast at h2
  field_simp
  linarith

theorem negIdx_lt {R : ℕ} (hR : 1 ≤ R) (k : ℕ) : negIdx R k < R :=
  Nat.mod_lt _ (by omega)

theorem negIdx_zero (R : ℕ) : negIdx R 0 = 0 := by
  unfold negIdx
  simp

theorem negIdx_pos_eq {R k : ℕ} (h0 : 0 < k) (hk : k < R) : negIdx R k = R - k := by
  unfold negIdx
  exact Nat.mod_eq_of_lt (by omega)

theorem negIdx_negIdx {R k : ℕ} (hk : k < R) : negIdx R (negIdx R k) = k := by
  rcases Nat.eq_zero_or_pos k with rfl | h0
  · rw [negIdx_zero, negIdx_zero]
  · rw [negIdx_pos_eq h0 hk, negIdx_pos_eq (by omega) (by omega)]
    omega

theorem negIdx_inj {R k k' : ℕ} (hk : k < R) (hk' : k' < R)
    (h : negIdx R k = negIdx R k') : k = k' := by
  have h2 := congrArg (negIdx R) h
  rwa [negIdx_negIdx hk, negIdx_negIdx hk'] at h2

/-- Mirror-image columns sample opposite real parts (`x ↦ -x`). -/
theorem xcoord_negIdx {R xp : ℕ} (h0 : 0 < xp) (hR : xp < R) :
    xcoord R (negIdx R xp) = -(xcoord R xp) := by
  have hR0 : (0 : ℝ) < R := by exact_mod_cast (by omega : 0 < R)
  have hni : negIdx R xp = R - xp := negIdx_pos_eq h0 hR
  rw [hni]
  unfold xcoord x0 x1
  have hc : ((R - xp : ℕ) : ℝ) = (R : ℝ) - (xp : ℝ) := by
    push_cast [Nat.cast_sub (le_of_lt hR)]
    ring
  rw [hc]
  field_simp
  ring

end CoordLemmas

section GridLemmas

/-- A cell no write targets keeps its initial value. -/
theorem runWrites_not_mem :
    ∀ (l : List ((ℕ × ℕ) × ℕ)) (g : ℕ × ℕ → ℕ) (p : ℕ × ℕ),
      p ∉ l.map Prod.fst → runWrites l g p = g p := by
  intro l
  induction l with
  | nil => intro g p _; rfl
  | cons a t ih =>
    intro g p hp
    rw [List.map_cons, List.mem_cons] at hp
    push_neg at hp
    have hstep : runWrites (a :: t) g = runWrites t (applyWrite g a) := rfl
    rw [hstep, ih _ p hp.2, applyWrite, Function.update_noteq hp.1]

/-- A cell all of whose writes carry the same value ends up with that value. -/
theorem runWrites_eq_of :
    ∀ (l : List ((ℕ × ℕ) × ℕ)) (g : ℕ × ℕ → ℕ) (p : ℕ × ℕ) (v : ℕ),
      p ∈ l.map Prod.fst → (∀ e ∈ l, e.1 = p → e.2 = v) → runWrites l g p = v := by
  intro l
  induction l with
  | nil => intro g p v hmem _; simp at hmem
  | cons a t ih =>
    intro g p v hmem hval
    have hstep : runWrites (a :: t) g = runWrites t (applyWrite g a) := rfl
    by_cases hp : p ∈ t.map Prod.fst
    · rw [hstep]
      exact ih _ p v hp (fun e he h1 => hval e (List.mem_cons_of_mem a he) h1)
    · have hpa : p = a.1 := by
        rw [List.map_cons, List.mem_cons] at hmem
        tauto
      rw [hstep, runWrites_not_mem t _ p hp, applyWrite, hpa,
        Function.update_same]
      exact hval a (List.mem_cons_self a t) hpa.symm

/-- Characterisation of the assignments the double loop performs: each comes
from an evaluated pixel `(xp, yp)` (with `y ≥ 0`, i.e. `R ≤ 2 * yp`) and is
either the primary write or the symmetric write. -/
theorem mem_writeEvents {R : ℕ} {c : ℂ} {r : ℝ} {m : ℕ} {e : (ℕ × ℕ) × ℕ}
    (hR : 1 ≤ R) :
    e ∈ writeEvents R c r m ↔
      ∃ xp, xp < R ∧ ∃ yp, yp < R ∧ R ≤ 2 * yp ∧
        (e = ((yp, xp), pixelValue R c r m xp yp) ∨
         e = ((negIdx R yp, negIdx R xp), pixelValue R c r m xp yp)) := by
  unfold writeEvents
  simp only [List.mem_flatMap, List.mem_range]
  constructor
  · rintro ⟨xp, hxp, yp, hyp, he⟩
    by_cases hy : ycoord R yp < 0
    · rw [if_pos hy] at he
      simp at he
    · rw [if_neg hy] at he
      have hy2 : R ≤ 2 * yp := by
        have : ¬ 2 * yp < R := fun hlt => hy ((ycoord_neg_iff hR yp).mpr hlt)
        omega
      simp only [List.mem_cons, List.not_mem_nil, or_false] at he
      exact ⟨xp, hxp, yp, hyp, hy2, he⟩
  · rintro ⟨xp, hxp, yp, hyp, hy2, he⟩
    refine ⟨xp, hxp, yp, hyp, ?_⟩
    rw [if_neg (by rw [ycoord_neg_iff hR yp]; omega)]
    simpa using he

/-- `checkz` takes equal values at a sampled point on the axis `y = 0` and at
its mirror image, because the two starting values are negatives of each other. -/
theorem pixelValue_mid {R px py : ℕ} (c : ℂ) (r : ℝ) (m : ℕ) (hR : 1 ≤ R)
    (hpx : px < R) (h2 : 2 * py = R) :
    pixelValue R c r m (negIdx R px) py = pixelValue R c r m px py := by
  rcases Nat.eq_zero_or_pos px with rfl | h0
  · rw [negIdx_zero]
  · unfold pixelValue
    rw [xcoord_negIdx h0 hpx, ycoord_eq_zero hR h2]
    have hz : ((-(xcoord R px) : ℝ) : ℂ) + Complex.I * ((0 : ℝ) : ℂ) =
        -(((xcoord R px : ℝ) : ℂ) + Complex.I * ((0 : ℝ) : ℂ)) := by
      push_cast
      ring
    rw [hz, checkz_neg]

/-- Row `0` of the array is never the target of any assignment. -/
theorem row_zero_not_mem {R : ℕ} (c : ℂ) (r : ℝ) (m : ℕ) (hR : 1 ≤ R)
    (px : ℕ) : (0, px) ∉ (writeEvents R c r m).map Prod.fst := by
  intro hcon
  rw [List.mem_map] at hcon
  obtain ⟨e, hemem, hefst⟩ := hcon
  rw [mem_writeEvents hR] at hemem
  obtain ⟨xp, hxp, yp, hyp, hy2, rfl | rfl⟩ := hemem
  · simp only [Prod.mk.injEq] at hefst
    omega
  · simp only [Prod.mk.injEq] at hefst
    have hny : negIdx R yp = R - yp := negIdx_pos_eq (by omega) hyp
    omega

/-- Closed form of the escape grid: row `0` is untouched, rows in the upper
half plane (`R ≤ 2 * py`) hold their own escape value, and the remaining rows
hold the value of their point reflection. -/
theorem grid_eq {R : ℕ} (c : ℂ) (r : ℝ) (m : ℕ) {py px : ℕ} (hR : 1 ≤ R)
    (hpy : py < R) (hpx : px < R) :
    grid R c r m (py, px) =
      if py = 0 then 0
      else if R ≤ 2 * py then pixelValue R c r m px py
      else pixelValue R c r m (negIdx R px) (R - py) := by
  rcases Nat.eq_zero_or_pos py with rfl | hpy0
  · rw [if_pos rfl]
    unfold grid
    exact runWrites_not_mem _ _ _ (row_zero_not_mem c r m hR px)
  · rw [if_neg (by omega)]
    by_cases hA : R ≤ 2 * py
    · rw [if_pos hA]
      unfold grid
      apply runWrites_eq_of
      · rw [List.mem_map]
        refine ⟨((py, px), pixelValue R c r m px py), ?_, rfl⟩
        rw [mem_writeEvents hR]
        exact ⟨px, hpx, py, hpy, hA, Or.inl rfl⟩
      · rintro e hemem hefst
        rw [mem_writeEvents hR] at hemem
        obtain ⟨xp, hxp, yp, hyp, hy2, rfl | rfl⟩ := hemem
        · simp only [Prod.mk.injEq] at hefst
          obtain ⟨h1, h2⟩ := hefst
          subst h1; subst h2
          rfl
        · simp only [Prod.mk.injEq] at hefst
          obtain ⟨h1, h2⟩ := hefst
          have hny : negIdx R yp = R - yp := negIdx_pos_eq (by omega) hyp
          have h2py : 2 * py = R := by omega
          have hyeq : yp = py := by omega
          subst hyeq
          have hxeq : xp = negIdx R px := by
            have h3 := congrArg (negIdx R) h2
            rwa [negIdx_negIdx hxp] at h3
          subst hxeq
          exact pixelValue_mid c r m hR hpx h2py
    · rw [if_neg hA]
      unfold grid
      apply runWrites_eq_of
      · rw [List.mem_map]
        refine ⟨((py, px), pixelValue R c r m (negIdx R px) (R - py)), ?_, rfl⟩
        rw [mem_writeEvents hR]
        refine ⟨negIdx R px, negIdx_lt hR px, R - py, by omega, by omega, Or.inr ?_⟩
        have hnn : negIdx R (negIdx R px) = px := negIdx_negIdx hpx
        have hnp : negIdx R (R - py) = py := by
          rw [negIdx_pos_eq (by omega) (by omega)]
          omega
        rw [hnn, hnp]
      · rintro e hemem hefst
        rw [mem_writeEvents hR] at hemem
        obtain ⟨xp, hxp, yp, hyp, hy2, rfl | rfl⟩ := hemem
        · simp only [Prod.mk.injEq] at hefst
          exfalso
          omega
        · simp only [Prod.mk.injEq] at hefst
          obtain ⟨h1, h2⟩ := hefst
          have hny : negIdx R yp = R - yp := negIdx_pos_eq (by omega) hyp
          have hyeq : yp = R - py := by omega
          have hxeq : xp = negIdx R px := by
            have h3 := congrArg (negIdx R) h2
            rwa [negIdx_negIdx hxp] at h3
          subst hyeq; subst hxeq
          rfl

/-- For a 1×1 picture the single pixel maps to `y = -2 < 0`, so the loop
performs no assignment at all. -/
theorem writeEvents_one (c : ℂ) (r : ℝ) (m : ℕ) : writeEvents 1 c r m = [] := by
  unfold writeEvents
  have h : ycoord 1 0 < 0 := by
    unfold ycoord y0 y1
    norm_num
  simp [List.range_succ, h]

/-- The 1×1 grid is identically zero. -/
theorem grid_one (c : ℂ) (r : ℝ) (m : ℕ) (q : ℕ × ℕ) : grid 1 c r m q = 0 := by
  unfold grid
  rw [writeEvents_one]
  rfl

end GridLemmas

section EvalLemmas

/-- Compare against the escape radius via the square of the absolute value. -/
theorem one_lt_abs_iff (w : ℂ) : 1 < Complex.abs w ↔ 1 < Complex.normSq w := by
  rw [← Complex.sq_abs]
  constructor
  · intro h
    nlinarith [Complex.abs.nonneg w]
  · intro h
    nlinarith [Complex.abs.nonneg w]

/-- Square of the absolute value of a sampled point. -/
theorem normSq_xiy (a b : ℝ) :
    Complex.normSq ((a : ℂ) + Complex.I * (b : ℂ)) = a ^ 2 + b ^ 2 := by
  rw [show (a : ℂ) + Complex.I * (b : ℂ) = (a : ℂ) + (b : ℂ) * Complex.I by ring]
  exact Complex.normSq_add_mul_I a b

/-- For `c = 0` the computed escape radius is `(1 + sqrt 1) / 2 = 1`. -/
theorem escapeRadius_zero : escapeRadius 0 = 1 := by
  unfold escapeRadius
  rw [show (1 + 4 * Complex.abs 0 : ℝ) = 1 by simp, Real.sqrt_one]
  norm_num

/-- At resolution 4 the sampled x-coordinates are `-2 + xpixel`. -/
theorem xcoord4 (k : ℕ) : xcoord 4 k = -2 + k := by
  unfold xcoord x0 x1
  push_cast
  ring

/-- At resolution 4 the sampled y-coordinates are `-2 + ypixel`. -/
theorem ycoord4 (k : ℕ) : ycoord 4 k = -2 + k := by
  unfold ycoord y0 y1
  push_cast
  ring

theorem pixelValue_eq (R : ℕ) (c : ℂ) (r : ℝ) (m : ℕ) (xp yp : ℕ) :
    pixelValue R c r m xp yp =
      checkz (((xcoord R xp : ℝ) : ℂ) + Complex.I * ((ycoord R yp : ℝ) : ℂ)) c r m :=
  rfl

/-- Pixel `(0, 2)` of the 4×4 grid for `c = 0`: `z0 = -2` escapes at once. -/
theorem pv_x0y2 : pixelValue 4 0 1 10 0 2 = 1 := by
  rw [pixelValue_eq]
  refine checkz_eq_one _ _ _ (by norm_num) ?_
  rw [one_lt_abs_iff]
  unfold f
  rw [add_zero, Complex.normSq_mul, normSq_xiy, xcoord4, ycoord4]
  push_cast
  norm_num

/-- Pixel `(1, 2)`: `z0 = -1` has the bounded trajectory `1, 1, 1, …`. -/
theorem pv_x1y2 : pixelValue 4 0 1 10 1 2 = 0 := by
  rw [pixelValue_eq]
  have hz : ((xcoord 4 1 : ℝ) : ℂ) + Complex.I * ((ycoord 4 2 : ℝ) : ℂ) = -1 := by
    rw [xcoord4, ycoord4]
    push_cast
    ring
  rw [hz]
  apply checkz_eq_zero_of
  intro i hi1 _
  obtain ⟨j, rfl⟩ : ∃ j, i = j + 1 := ⟨i - 1, by omega⟩
  rw [orbit_shift, show f (-1) 0 = 1 by unfold f; ring,
    orbit_fix (by unfold f; ring), map_one]

/-- Pixel `(2, 2)`: `z0 = 0` is a fixed point. -/
theorem pv_x2y2 : pixelValue 4 0 1 10 2 2 = 0 := by
  rw [pixelValue_eq]
  have hz : ((xcoord 4 2 : ℝ) : ℂ) + Complex.I * ((ycoord 4 2 : ℝ) : ℂ) = 0 := by
    rw [xcoord4, ycoord4]
    push_cast
    ring
  rw [hz]
  apply checkz_eq_zero_of
  intro i _ _
  rw [orbit_fix (by unfold f; ring), map_zero]
  norm_num

/-- Pixel `(3, 2)`: `z0 = 1` is a fixed point of absolute value 1. -/
theorem pv_x3y2 : pixelValue 4 0 1 10 3 2 = 0 := by
  rw [pixelValue_eq]
  have hz : ((xcoord 4 3 : ℝ) : ℂ) + Complex.I * ((ycoord 4 2 : ℝ) : ℂ) = 1 := by
    rw [xcoord4, ycoord4]
    push_cast
    ring
  rw [hz]
  apply checkz_eq_zero_of
  intro i _ _
  rw [orbit_fix (by unfold f; ring), map_one]

/-- Pixel `(0, 3)`: `z0 = -2 + i` escapes at once (`|z0²| = 5`). -/
theorem pv_x0y3 : pixelValue 4 0 1 10 0 3 = 1 := by
  rw [pixelValue_eq]
  refine checkz_eq_one _ _ _ (by norm_num) ?_
  rw [one_lt_abs_iff]
  unfold f
  rw [add_zero, Complex.normSq_mul, normSq_xiy, xcoord4, ycoord4]
  push_cast
  norm_num

/-- Pixel `(1, 3)`: `z0 = -1 + i` escapes at once (`|z0²| = 2`). -/
theorem pv_x1y3 : pixelValue 4 0 1 10 1 3 = 1 := by
  rw [pixelValue_eq]
  refine checkz_eq_one _ _ _ (by norm_num) ?_
  rw [one_lt_abs_iff]
  unfold f
  rw [add_zero, Complex.normSq_mul, normSq_xiy, xcoord4, ycoord4]
  push_cast
  norm_num

/-- Pixel `(2, 3)`: `z0 = i` has the bounded trajectory `-1, 1, 1, …`. -/
theorem pv_x2y3 : pixelValue 4 0 1 10 2 3 = 0 := by
  rw [pixelValue_eq]
  have hz : ((xcoord 4 2 : ℝ) : ℂ) + Complex.I * ((ycoord 4 3 : ℝ) : ℂ) = Complex.I := by
    rw [xcoord4, ycoord4]
    push_cast
    ring
  rw [hz]
  apply checkz_eq_zero_of
  intro i hi1 _
  have hfI : f Complex.I 0 = -1 := by
    unfold f
    rw [Complex.I_mul_I]
    ring
  match i, hi1 with
  | 1, _ =>
    rw [show orbit Complex.I 0 1 = f Complex.I 0 from rfl, hfI]
    simp
  | (j + 2), _ =>
    rw [orbit_shift, hfI, orbit_shift, show f (-1) 0 = 1 by unfold f; ring,
      orbit_fix (by unfold f; ring), map_one]

/-- Pixel `(3, 3)`: `z0 = 1 + i` escapes at once (`|z0²| = 2`). -/
theorem pv_x3y3 : pixelValue 4 0 1 10 3 3 = 1 := by
  rw [pixelValue_eq]
  refine checkz_eq_one _ _ _ (by norm_num) ?_
  rw [one_lt_abs_iff]
  unfold f
  rw [add_zero, Complex.normSq_mul, normSq_xiy, xcoord4, ycoord4]
  push_cast
  norm_num

/-- The full 4×4 escape grid for `c = 0`, `max_iter = 10`, cell by cell. -/
theorem grid4_eval (py px : ℕ) (hpy : py < 4) (hpx : px < 4) :
    grid 4 0 (escapeRadius 0) 10 (py, px) = expectedGrid4 (py, px) := by
  rw [escapeRadius_zero]
  interval_cases py <;> interval_cases px <;>
    rw [grid_eq 0 1 10 (by norm_num) (by norm_num) (by norm_num)] <;>
    norm_num [negIdx, expectedGrid4, pv_x0y2, pv_x1y2, pv_x2y2, pv_x3y2,
      pv_x0y3, pv_x1y3, pv_x2y3, pv_x3y3]

end EvalLemmas

section ClaimTheorems1

/-- C1: for every `z0`, `c`, real `r` and `max_iter ≥ 1`, `checkz` returns the
smallest 1-based index `n ≤ max_iter` with `|f^n(z0)| > r`, and `0` when there
is none: a positive result `n` satisfies `n ≤ max_iter`, `|z_n| > r` and
`|z_k| ≤ r` for every checked index `1 ≤ k < n`; a zero result means no index
`1 ≤ k ≤ max_iter` escapes. -/
theorem checkz_first_escape (z c : ℂ) (r : ℝ) (m : ℕ) (hm : 1 ≤ m) :
    (0 < checkz z c r m →
      checkz z c r m ≤ m ∧
      r < Complex.abs (orbit z c (checkz z c r m)) ∧
      ∀ k, 1 ≤ k → k < checkz z c r m → Complex.abs (orbit z c k) ≤ r) ∧
    (checkz z c r m = 0 →
      ∀ k, 1 ≤ k → k ≤ m → Complex.abs (orbit z c k) ≤ r) := by
  have hspec := checkzGo_spec c r m z 1 le_rfl
  constructor
  · intro hpos
    have hpos' : 0 < checkzGo c r z 1 m := hpos
    obtain ⟨i, hi1, him, heq, hgt, hbelow⟩ := hspec.2 hpos'
    have hN : checkz z c r m = i := by
      unfold checkz
      omega
    rw [hN]
    exact ⟨by omega, hgt, hbelow⟩
  · intro h0
    exact hspec.1 h0

theorem checkz_first_escape_witness :
    1 ≤ 3 ∧ checkz 2 0 (1 : ℝ) 3 ≤ 3 ∧
      (1 : ℝ) < Complex.abs (orbit 2 0 (checkz 2 0 (1 : ℝ) 3)) := by
  have habs : (1 : ℝ) < Complex.abs (f 2 0) := by
    rw [show f 2 0 = (4 : ℂ) by unfold f; norm_num, Complex.abs_ofNat]
    norm_num
  have hpos : 0 < checkz 2 0 (1 : ℝ) 3 := by
    rw [checkz_eq_one 2 0 1 (by norm_num) habs]
    norm_num
  have h := (checkz_first_escape 2 0 1 3 (by norm_num)).1 hpos
  exact ⟨by norm_num, h.1, h.2.1⟩

/-- C3: the escape test is total (its recursion is structural on the fuel
`max_iter`) and its result always lies in `[0, max_iter]`. -/
theorem checkz_total_range (z c : ℂ) (r : ℝ) (m : ℕ) (hr : 0 < r)
    (hm : 1 ≤ m) : 0 ≤ checkz z c r m ∧ checkz z c r m ≤ m :=
  ⟨Nat.zero_le _, checkz_le z c r m⟩

theorem checkz_total_range_witness :
    ((0 : ℝ) < 1 ∧ 1 ≤ 5) ∧ 0 ≤ checkz 0 0 (1 : ℝ) 5 ∧ checkz 0 0 (1 : ℝ) 5 ≤ 5 :=
  ⟨⟨by norm_num, by norm_num⟩, checkz_total_range 0 0 1 5 (by norm_num) (by norm_num)⟩

/-- C2: the computed escape grid is invariant under point reflection through
the grid centre with negative-index wraparound:
`G[y][x] = G[(R-y) % R][(R-x) % R]` for all valid indices. -/
theorem grid_point_symm (R : ℕ) (c : ℂ) (m : ℕ) (hR : 1 ≤ R) (hm : 1 ≤ m)
    {py px : ℕ} (hpy : py < R) (hpx : px < R) :
    grid R c (escapeRadius c) m (py, px) =
      grid R c (escapeRadius c) m ((R - py) % R, (R - px) % R) := by
  have hpy' : (R - py) % R < R := Nat.mod_lt _ (by omega)
  have hpx' : (R - px) % R < R := Nat.mod_lt _ (by omega)
  rw [grid_eq c (escapeRadius c) m hR hpy hpx,
    grid_eq c (escapeRadius c) m hR hpy' hpx']
  rcases Nat.eq_zero_or_pos py with rfl | hpy0
  · rw [show (R - 0) % R = 0 by simp]
    simp
  · have hrow : (R - py) % R = R - py := Nat.mod_eq_of_lt (by omega)
    rw [hrow, show (R - px) % R = negIdx R px from rfl]
    by_cases hmid : 2 * py = R
    · rw [show R - py = py by omega]
      rw [if_neg (show ¬ py = 0 by omega), if_neg (show ¬ py = 0 by omega),
        if_pos (show R ≤ 2 * py by omega), if_pos (show R ≤ 2 * py by omega)]
      exact (pixelValue_mid c (escapeRadius c) m hR hpx hmid).symm
    · by_cases hA : R ≤ 2 * py
      · rw [if_neg (show ¬ py = 0 by omega), if_pos hA,
          if_neg (show ¬ R - py = 0 by omega),
          if_neg (show ¬ R ≤ 2 * (R - py) by omega)]
        rw [negIdx_negIdx hpx, show R - (R - py) = py by omega]
      · rw [if_neg (show ¬ py = 0 by omega), if_neg hA,
          if_neg (show ¬ R - py = 0 by omega),
          if_pos (show R ≤ 2 * (R - py) by omega)]

theorem grid_point_symm_witness :
    (1 ≤ 4 ∧ 1 ≤ 10) ∧
      grid 4 0 (escapeRadius 0) 10 (3, 1) =
        grid 4 0 (escapeRadius 0) 10 ((4 - 3) % 4, (4 - 1) % 4) :=
  ⟨⟨by norm_num, by norm_num⟩,
    grid_point_symm 4 0 10 (by norm_num) (by norm_num) (by norm_num) (by norm_num)⟩

/-- C4 (counterexample): for `c = 0`, resolution 4, `max_iter = 10` the grid
is NOT entirely 0: the boundary pixel in row 2, column 0 (sampled point
`z0 = -2`) escapes on the first iteration. -/
theorem grid4_not_all_zero : grid 4 0 (escapeRadius 0) 10 (2, 0) ≠ 0 := by
  rw [grid4_eval 2 0 (by norm_num) (by norm_num)]
  decide

/-- C4 (amended): for `c = 0`, resolution 4, `max_iter = 10` the escape grid
equals the hand-derived table `expectedGrid4`: zero everywhere except the
seven cells whose sampled point (or the sampled point of their symmetric
source) has `|z0| > 1`, which hold 1. -/
theorem grid4_explicit (p : Fin 4 × Fin 4) :
    grid 4 0 (escapeRadius 0) 10 ((p.1 : ℕ), (p.2 : ℕ)) =
      expectedGrid4 ((p.1 : ℕ), (p.2 : ℕ)) :=
  grid4_eval p.1 p.2 p.1.isLt p.2.isLt

/-- C9: for `c = 0` the computed escape radius is exactly 1, and every
starting value with `|z0| > 1` makes the escape test return 1 (escape on the
first iteration, since `|z0|² > 1 = r`). -/
theorem escape_radius_zero_first_iter :
    escapeRadius 0 = 1 ∧
      ∀ z0 : ℂ, 1 < Complex.abs z0 → ∀ m : ℕ, 1 ≤ m →
        checkz z0 0 (escapeRadius 0) m = 1 := by
  refine ⟨escapeRadius_zero, ?_⟩
  intro z0 h m hm
  rw [escapeRadius_zero]
  apply checkz_eq_one z0 0 1 hm
  unfold f
  rw [add_zero, map_mul]
  nlinarith [Complex.abs.nonneg z0]

theorem escape_radius_zero_first_iter_witness :
    (1 : ℝ) < Complex.abs 2 ∧ checkz 2 0 (escapeRadius 0) 1 = 1 := by
  have h2 : (1 : ℝ) < Complex.abs 2 := by
    rw [Complex.abs_two]
    norm_num
  exact ⟨h2, escape_radius_zero_first_iter.2 2 h2 1 le_rfl⟩

/-- C10: row 0 of the grid (pixels with `ypixel = 0`, mapped to `y = -2 < 0`)
is never the target of any assignment and stays 0; in particular for
resolution 1 the whole 1×1 grid is 0, whatever `c` is. -/
theorem row_zero_untouched (R : ℕ) (c : ℂ) (m : ℕ) (hR : 1 ≤ R) (hm : 1 ≤ m)
    (px : ℕ) (hpx : px < R) :
    ((0, px) ∉ (writeEvents R c (escapeRadius c) m).map Prod.fst ∧
      grid R c (escapeRadius c) m (0, px) = 0) ∧
    ∀ q : ℕ × ℕ, grid 1 c (escapeRadius c) m q = 0 := by
  refine ⟨⟨row_zero_not_mem c (escapeRadius c) m hR px, ?_⟩,
    fun q => grid_one c (escapeRadius c) m q⟩
  rw [grid_eq c (escapeRadius c) m hR (by omega) hpx, if_pos rfl]

theorem row_zero_untouched_witness :
    grid 4 0 (escapeRadius 0) 10 (0, 1) = 0 ∧
      grid 1 0 (escapeRadius 0) 10 (0, 0) = 0 :=
  ⟨((row_zero_untouched 4 0 10 (by norm_num) (by norm_num) 1 (by norm_num)).1).2,
    (row_zero_untouched 4 0 10 (by norm_num) (by norm_num) 1 (by norm_num)).2 (0, 0)⟩

end ClaimTheorems1

section ClaimTheorems2

/-- The write targets of the double loop, with the written values dropped. -/
theorem writeEvents_map_fst (R : ℕ) (c : ℂ) (r : ℝ) (m : ℕ) :
    (writeEvents R c r m).map Prod.fst =
      (List.range R).flatMap fun xp =>
        (List.range R).flatMap fun yp =>
          if ycoord R yp < 0 then []
          else [(yp, xp), (negIdx R yp, negIdx R xp)] := by
  unfold writeEvents
  rw [List.map_flatMap]
  congr 1
  funext xp
  rw [List.map_flatMap]
  congr 1
  funext yp
  by_cases hy : ycoord R yp < 0
  · rw [if_pos hy, if_pos hy]
    rfl
  · rw [if_neg hy, if_neg hy]
    rfl

/-- C5 (counterexample): already at resolution 2 the loop writes the same
cell twice — iteration `(xpixel, ypixel) = (0, 1)` writes `pixels[1, 0]` as
its primary cell and again as its "symmetric" cell, so the write targets are
not pairwise disjoint. -/
theorem writes_duplicate_R2 :
    ¬ ((writeEvents 2 0 (escapeRadius 0) 1).map Prod.fst).Nodup := by
  have h0 : ycoord 2 0 < 0 := by
    unfold ycoord y0 y1
    push_cast
    norm_num
  have h1 : ¬ ycoord 2 1 < 0 := by
    unfold ycoord y0 y1
    push_cast
    norm_num
  have hlist : (writeEvents 2 0 (escapeRadius 0) 1).map Prod.fst =
      [(1, 0), (1, 0), (1, 1), (1, 1)] := by
    unfold writeEvents
    simp [List.range_succ, h0, h1, negIdx]
  rw [hlist]
  decide

/-- C5 (amended): for every ODD resolution the write targets of the double
loop are pairwise distinct, i.e. each grid cell is written at most once.
(For even resolutions this fails, see the counterexample at resolution 2:
the middle row `R/2` is mapped to `y = 0` and collides with itself under the
point reflection.) -/
theorem writes_nodup_odd (R : ℕ) (c : ℂ) (r : ℝ) (m : ℕ) (hodd : Odd R) :
    ((writeEvents R c r m).map Prod.fst).Nodup := by
  have h2 : R % 2 = 1 := Nat.odd_iff.mp hodd
  have hR : 1 ≤ R := by omega
  rw [writeEvents_map_fst, List.nodup_flatMap]
  refine ⟨?_, ?_⟩
  · intro xp hxp
    rw [List.nodup_flatMap]
    refine ⟨?_, ?_⟩
    · intro yp hyp
      by_cases hy : ycoord R yp < 0
      · rw [if_pos hy]
        exact List.nodup_nil
      · rw [if_neg hy]
        have hypR : yp < R := List.mem_range.mp hyp
        have hy2 : R ≤ 2 * yp := by
          have hn : ¬ 2 * yp < R := fun hlt => hy ((ycoord_neg_iff hR yp).mpr hlt)
          omega
        have hne : (yp, xp) ≠ (negIdx R yp, negIdx R xp) := by
          intro hcon
          have hrow := congrArg Prod.fst hcon
          simp only at hrow
          rw [negIdx_pos_eq (by omega) hypR] at hrow
          omega
        simp [hne]
    · refine List.Pairwise.imp_of_mem ?_ (List.nodup_range R)
      intro y1 y2 h1mem h2mem hne a ha1 ha2
      simp only [] at ha1 ha2
      have hy1R : y1 < R := List.mem_range.mp h1mem
      have hy2R : y2 < R := List.mem_range.mp h2mem
      by_cases hs1 : ycoord R y1 < 0
      · rw [if_pos hs1] at ha1
        simp at ha1
      by_cases hs2 : ycoord R y2 < 0
      · rw [if_pos hs2] at ha2
        simp at ha2
      rw [if_neg hs1] at ha1
      rw [if_neg hs2] at ha2
      have hc1 : R ≤ 2 * y1 := by
        have hn : ¬ 2 * y1 < R := fun hlt => hs1 ((ycoord_neg_iff hR y1).mpr hlt)
        omega
      have hc2 : R ≤ 2 * y2 := by
        have hn : ¬ 2 * y2 < R := fun hlt => hs2 ((ycoord_neg_iff hR y2).mpr hlt)
        omega
      have hn1 : negIdx R y1 = R - y1 := negIdx_pos_eq (by omega) hy1R
      have hn2 : negIdx R y2 = R - y2 := negIdx_pos_eq (by omega) hy2R
      simp only [List.mem_cons, List.not_mem_nil, or_false] at ha1 ha2
      rcases ha1 with rfl | rfl <;> rcases ha2 with h | h <;>
        simp only [Prod.mk.injEq, hn1, hn2] at h <;> omega
  · refine List.Pairwise.imp_of_mem ?_ (List.nodup_range R)
    intro xc1 xc2 h1mem h2mem hne a ha1 ha2
    simp only [] at ha1 ha2
    have hx1R : xc1 < R := List.mem_range.mp h1mem
    have hx2R : xc2 < R := List.mem_range.mp h2mem
    rw [List.mem_flatMap] at ha1 ha2
    obtain ⟨yr1, hy1mem, ha1⟩ := ha1
    obtain ⟨yr2, hy2mem, ha2⟩ := ha2
    have hy1R : yr1 < R := List.mem_range.mp hy1mem
    have hy2R : yr2 < R := List.mem_range.mp hy2mem
    by_cases hs1 : ycoord R yr1 < 0
    · rw [if_pos hs1] at ha1
      simp at ha1
    by_cases hs2 : ycoord R yr2 < 0
    · rw [if_pos hs2] at ha2
      simp at ha2
    rw [if_neg hs1] at ha1
    rw [if_neg hs2] at ha2
    have hc1 : R ≤ 2 * yr1 := by
      have hn : ¬ 2 * yr1 < R := fun hlt => hs1 ((ycoord_neg_iff hR yr1).mpr hlt)
      omega
    have hc2 : R ≤ 2 * yr2 := by
      have hn : ¬ 2 * yr2 < R := fun hlt => hs2 ((ycoord_neg_iff hR yr2).mpr hlt)
      omega
    have hn1 : negIdx R yr1 = R - yr1 := negIdx_pos_eq (by omega) hy1R
    have hn2 : negIdx R yr2 = R - yr2 := negIdx_pos_eq (by omega) hy2R
    simp only [List.mem_cons, List.not_mem_nil, or_false] at ha1 ha2
    rcases ha1 with rfl | rfl <;> rcases ha2 with h | h <;>
      simp only [Prod.mk.injEq, hn1, hn2] at h
    · omega
    · omega
    · omega
    · exact hne (negIdx_inj hx1R hx2R h.2)

theorem writes_nodup_odd_witness :
    Odd 3 ∧ ((writeEvents 3 0 (escapeRadius 0) 1).map Prod.fst).Nodup :=
  ⟨⟨1, by norm_num⟩, writes_nodup_odd 3 0 (escapeRadius 0) 1 ⟨1, by norm_num⟩⟩

/-- C6: the all-zero escape grid (as the program produces e.g. at
resolution 1) has maximum 0, so on it the colour branch's normalization
`numpy.divide(pixels, numpy.amax(pixels))` divides zero by zero instead of
producing a black image: in floating point this yields NaN pixels and
`colorsys.hsv_to_rgb` then raises on `int(nan)`. -/
theorem allzero_grid_amax_zero (c : ℂ) (m : ℕ) :
    gridAmax 1 (grid 1 c (escapeRadius c) m) = 0 := by
  unfold gridAmax
  simp [grid_one c (escapeRadius c) m, List.range_succ]

/-- `colorsys.hsv_to_rgb` at hue 1, saturation 1, value 0.5. -/
theorem hsv_one_eval : hsv_to_rgb 1 1 0.5 = (0.5, 0, 0) := by
  norm_num [hsv_to_rgb, pyInt]

/-- `colorsys.hsv_to_rgb` at hue 0, saturation 1, value 0.5. -/
theorem hsv_zero_eval : hsv_to_rgb 0 1 0.5 = (0.5, 0, 0) := by
  norm_num [hsv_to_rgb, pyInt]

/-- C7: on the normalized grid values `v ∈ [0, 1]` and for any offset in
`[0, 1)`, the colour branch's per-pixel mapping agrees with the spec's: 0
maps to black and `v > 0` maps to HSV(hue = (v + offset) mod 1, 1, 0.5).
(At `v + offset = 1` the code keeps hue 1 where the spec's `mod 1` gives
hue 0, but `hsv_to_rgb` sends both hues to the same RGB triple.) -/
theorem colour_pixel_matches_spec (v offset : ℝ) (hv0 : 0 ≤ v) (hv1 : v ≤ 1)
    (ho0 : 0 ≤ offset) (ho1 : offset < 1) :
    colourPixel v offset = specColourPixel v offset := by
  simp only [colourPixel, specColourPixel]
  by_cases hv : v = 0
  · rw [if_pos hv, if_pos hv]
  · rw [if_neg hv, if_neg hv]
    by_cases hgt : 1 < v + offset
    · rw [if_pos hgt]
      have hfl : ⌊v + offset⌋ = 1 := by
        rw [Int.floor_eq_iff]
        refine ⟨by push_cast; linarith, by push_cast; linarith⟩
      have hfr : Int.fract (v + offset) = v + offset - 1 := by
        unfold Int.fract
        rw [hfl]
        norm_num
      rw [hfr]
    · rw [if_neg hgt]
      rcases lt_or_eq_of_le (not_lt.mp hgt) with hlt | heq
      · rw [Int.fract_eq_self.mpr ⟨by linarith, hlt⟩]
      · rw [heq, show Int.fract (1 : ℝ) = 0 by simp, hsv_one_eval, hsv_zero_eval]

theorem colour_pixel_matches_spec_witness :
    ((0 : ℝ) ≤ 0.5 ∧ (0.5 : ℝ) ≤ 1 ∧ (0 : ℝ) ≤ 0 ∧ (0 : ℝ) < 1) ∧
      colourPixel 0.5 0 = specColourPixel 0.5 0 :=
  ⟨⟨by norm_num, by norm_num, le_rfl, by norm_num⟩,
    colour_pixel_matches_spec 0.5 0 (by norm_num) (by norm_num) le_rfl (by norm_num)⟩

/-- C8: the colour branch of `main` runs exactly when `--colour` was passed:
the guard `args.colour is True` sees the boolean `True` written by
`store_true` when the flag is present, and the string default `'false'`
(which is not the object `True`) when it is absent, so the flag behaves as a
boolean flag defaulting to off and the output is grayscale without it. -/
theorem colour_flag_iff (passed : Bool) :
    colourIsTrue (colourParsed passed) = passed := by
  cases passed <;> rfl

end ClaimTheorems2
